import Mathlib

/-!
Shallow embedding of the `convar` library: a registry of named, typed
console variables with change callbacks, a command executor, a bounded
log buffer and file persistence.

Modelling conventions:
* Go strings are lists of runes (`GoStr := List Char`).
* A Go `interface{}` holding `int`, `float64` or `string` is `GoVal`.
* `float64` is kept abstract through a `FloatModel` bundling the three
  operations the library performs on floats: `==` comparison,
  `strconv.ParseFloat` and `%v` formatting.  All theorems hold for every
  float model; witnesses instantiate a trivial one.
* `sync/atomic` cells and mutexes disappear: operations are pure state
  transformers on explicit `ConVar`/`Console` values.
* Change callbacks (`ValSetFunc`) are modelled by recording the
  `(oldVal, newVal)` pairs they would have been invoked with.
* A Go runtime panic is modelled by an `Option`-returning function
  producing `none` (used for the slice operations in `log` and `chunks`
  that can go out of range).
-/

/-- Go strings, modelled as their list of runes. -/
abbrev GoStr := List Char

/-- Abstract model of Go `float64` with the operations the library uses:
`==` comparison, `strconv.ParseFloat` (`none` on parse error) and `%v`
formatting. -/
structure FloatModel : Type 1 where
  F : Type
  beq : F → F → Bool
  parse : GoStr → Option F
  format : F → GoStr

variable {M : FloatModel}

/-- The subset of `reflect.Kind` the library mentions
(`reflect.Bool`, `reflect.Int`, `reflect.Float64`, `reflect.String`). -/
inductive Kind : Type where
  | bool : Kind
  | int : Kind
  | float64 : Kind
  | str : Kind
deriving DecidableEq

/-- A Go `interface{}` value of one of the three storable dynamic types. -/
inductive GoVal (M : FloatModel) : Type where
  | int : Int → GoVal M
  | float : M.F → GoVal M
  | str : GoStr → GoVal M

/-- `reflect.TypeOf(v).Kind()` for a non-nil stored value. -/
def kindOf : GoVal M → Kind
  | .int _ => .int
  | .float _ => .float64
  | .str _ => .str

/-- Go interface equality `==` on two stored values: equal dynamic type
and equal value (floats compared with the model's `beq`). -/
def goEq : GoVal M → GoVal M → Bool
  | .int a, .int b => a == b
  | .float a, .float b => M.beq a b
  | .str a, .str b => a == b
  | _, _ => false

/-- The library's error values (`errors.go`), carrying the data the
format strings mention (the formatted value itself is dropped). -/
inductive GoError : Type where
  | nilValue : GoError
  | typeMismatch : GoStr → Kind → GoError
  | varBadType : GoStr → Kind → GoError
  | varNotFound : GoStr → GoError
  | badStringConversion : GoStr → Kind → GoError
deriving DecidableEq

/-- `unicode.IsSpace` (the rune classes `strings.Fields` and
`strings.TrimSpace` split and trim on). -/
def isGoSpace (c : Char) : Bool :=
  c == ' ' || c == '\t' || c == '\n' || c.val == 0x0B || c.val == 0x0C ||
  c == '\r' || c.val == 0x85 || c.val == 0xA0 || c.val == 0x1680 ||
  (0x2000 ≤ c.val && c.val ≤ 0x200A) || c.val == 0x2028 || c.val == 0x2029 ||
  c.val == 0x202F || c.val == 0x205F || c.val == 0x3000

/-- `strings.ToLower`.  The Go version uses the full Unicode case
tables; the model uses Lean's rune-wise `Char.toLower` (they agree on
ASCII, which is all the library's own strings use). -/
def toLowerStr (s : GoStr) : GoStr := s.map Char.toLower

/-- `strings.TrimSpace`: drop leading and trailing space runes. -/
def trimSpace (s : GoStr) : GoStr :=
  ((s.dropWhile isGoSpace).reverse.dropWhile isGoSpace).reverse

/-- Accumulator pass of `strings.Fields`: split on runs of space runes.
`acc` holds the runes of the current token in reverse. -/
def fieldsAux : GoStr → GoStr → List GoStr
  | [], acc => if acc.isEmpty then [] else [acc.reverse]
  | c :: cs, acc =>
    if isGoSpace c then
      if acc.isEmpty then fieldsAux cs [] else acc.reverse :: fieldsAux cs []
    else fieldsAux cs (c :: acc)

/-- `strings.Fields`. -/
def fieldsGo (s : GoStr) : List GoStr := fieldsAux s []

/-- Digit run to number, for `strconv.Atoi`. -/
def digitsVal (l : GoStr) : Nat := l.foldl (fun a c => 10 * a + (c.toNat - 48)) 0

/-- `strconv.Atoi`: optional sign, a nonempty run of decimal digits,
64-bit range check (`none` is the error return). -/
def goAtoi (s : GoStr) : Option Int :=
  match s with
  | [] => none
  | c :: rest =>
    let signed : Bool × GoStr :=
      if c = '-' then (true, rest) else if c = '+' then (false, rest) else (false, s)
    if signed.2 = [] then none
    else if signed.2.all Char.isDigit then
      let v : Int := if signed.1 then -(digitsVal signed.2 : Int) else (digitsVal signed.2 : Int)
      if -(2 : Int) ^ 63 ≤ v ∧ v ≤ (2 : Int) ^ 63 - 1 then some v else none
    else none

/-- Decimal digits of a natural number (`fuel` keeps the recursion
structural; `natToStr` supplies enough fuel). -/
def natDigitsAux : Nat → Nat → GoStr → GoStr
  | 0, _, acc => acc
  | fuel + 1, n, acc =>
    let acc' := Char.ofNat (48 + n % 10) :: acc
    if n < 10 then acc' else natDigitsAux fuel (n / 10) acc'

/-- Decimal representation of a natural number. -/
def natToStr (n : Nat) : GoStr := natDigitsAux (n + 1) n []

/-- `fmt.Sprintf("%v", n)` for a Go `int`. -/
def intToStr (n : Int) : GoStr :=
  if n < 0 then '-' :: natToStr (-n).toNat else natToStr n.toNat

/-- `fmt.Sprintf("%v", value)` for a stored value. -/
def formatVal : GoVal M → GoStr
  | .int n => intToStr n
  | .float f => M.format f
  | .str s => s

/-- A console variable (`ConVar`).  The `console` back-pointer is
dropped: callbacks are modelled by recording their arguments, so the
struct carries only the data its own operations read. -/
structure ConVar (M : FloatModel) : Type where
  varName : GoStr
  varType : Kind
  varDesc : GoStr
  value : GoVal M
  valDefault : GoVal M
  isFunc : Bool

/-- `NewConVar`.  The two construction-time panics (default value kind
mismatch, unsupported kind) are `none`. -/
def NewConVar (varName : GoStr) (varType : Kind) (isFunc : Bool)
    (varDesc : GoStr) (valDefault : GoVal M) : Option (ConVar M) :=
  let name := toLowerStr varName
  if varType ≠ kindOf valDefault then none
  else if ¬(varType = .int ∨ varType = .float64 ∨ varType = .str) then none
  else some ⟨name, varType, varDesc, valDefault, valDefault, isFunc⟩

/-- Result of `ConVar.write`: the convar state after the call (any
mutation performed before an error return would be visible here), the
callback invocations it performed, and the returned error. -/
structure WriteOut (M : FloatModel) : Type where
  cv : ConVar M
  calls : List (GoVal M × GoVal M)
  err : Option GoError

/-- `(*ConVar).write(varType, value, argc)`, translated return point by
return point.  `value = none` is a nil interface argument; `argc` is the
Go `int` argument count. -/
def ConVar.write (cv : ConVar M) (varType : Kind) (value : Option (GoVal M))
    (argc : Int) : WriteOut M :=
  match value with
  | none => ⟨cv, [], some .nilValue⟩
  | some v =>
    if kindOf v ≠ varType then ⟨cv, [], some (.typeMismatch cv.varName varType)⟩
    else if cv.varType ≠ varType then ⟨cv, [], some (.varBadType cv.varName varType)⟩
    else if cv.isFunc then ⟨cv, [(cv.valDefault, v)], none⟩
    else if argc < 2 then ⟨cv, [], none⟩
    else if goEq cv.value v then ⟨cv, [], none⟩
    else ⟨{ cv with value := v }, [(cv.value, v)], none⟩

/-- `SetBool`: booleans write 1 or 0 through the integer path. -/
def ConVar.SetBool (cv : ConVar M) (value : Bool) : WriteOut M :=
  if value then cv.write .int (some (.int 1)) 2 else cv.write .int (some (.int 0)) 2

/-- `SetInt`. -/
def ConVar.SetInt (cv : ConVar M) (value : Int) : WriteOut M :=
  cv.write .int (some (.int value)) 2

/-- `SetFloat64`. -/
def ConVar.SetFloat64 (cv : ConVar M) (value : M.F) : WriteOut M :=
  cv.write .float64 (some (.float value)) 2

/-- `SetString`. -/
def ConVar.SetString (cv : ConVar M) (value : GoStr) : WriteOut M :=
  cv.write .str (some (.str value)) 2

/-- `Bool()` accessor: integer-backed, `value.(int) == 1`. -/
def ConVar.getBool (cv : ConVar M) : Except GoError Bool :=
  match cv.value with
  | .int n => .ok (n == 1)
  | _ => .error (.varBadType cv.varName .int)

/-- `Int()` accessor. -/
def ConVar.getInt (cv : ConVar M) : Except GoError Int :=
  match cv.value with
  | .int n => .ok n
  | _ => .error (.varBadType cv.varName .int)

/-- `Float64()` accessor. -/
def ConVar.getFloat64 (cv : ConVar M) : Except GoError M.F :=
  match cv.value with
  | .float f => .ok f
  | _ => .error (.varBadType cv.varName .float64)

/-- `String()` accessor. -/
def ConVar.getString (cv : ConVar M) : Except GoError GoStr :=
  match cv.value with
  | .str s => .ok s
  | _ => .error (.varBadType cv.varName .str)

/-- `Reset`: store the default back, no callback. -/
def ConVar.Reset (cv : ConVar M) : ConVar M := { cv with value := cv.valDefault }

/-- A sequence of `write` calls applied to one convar, accumulating the
callback invocations; each call's error, as in the Go API, is reported
to that caller and does not stop later calls. -/
def writeSeq (cv : ConVar M) : List (Kind × Option (GoVal M) × Int) →
    ConVar M × List (GoVal M × GoVal M)
  | [] => (cv, [])
  | (t, v, n) :: ops =>
    let o := cv.write t v n
    let r := writeSeq o.cv ops
    (r.1, o.calls ++ r.2)

/-- Trivial float model used to instantiate witnesses. -/
def unitFloatModel : FloatModel where
  F := Unit
  beq := fun _ _ => true
  parse := fun s => if s = ['0'] then some () else none
  format := fun _ => ['0']

/-- Log level constants (`LogNone < LogInfo < LogWarning < LogError`,
stored as a Go `int32`). -/
def LogNone : Int := 0

/-- `LogInfo`. -/
def LogInfo : Int := 1

/-- `LogWarning`. -/
def LogWarning : Int := 2

/-- `LogError`. -/
def LogError : Int := 3

/-- The console (`Console`): variable registry, bounded log buffer,
log level and the three log prefixes.  Locks are dropped; the map is an
association list keyed by the canonical variable name (`vars` embeds the
source's `variables` field, whose name is a Lean keyword). -/
structure Console (M : FloatModel) : Type where
  vars : List (ConVar M)
  buffer : List GoStr
  bufMaxLines : Int
  logLevel : Int
  logInfoPre : GoStr
  logWarnPre : GoStr
  logErrPre : GoStr

/-- `NewConsole`. -/
def NewConsole (bufMaxLines : Int) (logLevel : Int)
    (logInfoPre logWarnPre logErrPre : GoStr) : Console M :=
  ⟨[], [], bufMaxLines, logLevel, logInfoPre, logWarnPre, logErrPre⟩

/-- The buffer transformation inside `(*Console).log`: if the length has
reached `bufMaxLines`, shift off the oldest line (`buffer[1:]`, which
panics on an empty slice — `none`), then append the new line. -/
def goLogAppend (bufMaxLines : Int) (buffer : List GoStr) (line : GoStr) :
    Option (List GoStr) :=
  if (buffer.length : Int) ≥ bufMaxLines then
    match buffer with
    | [] => none
    | _ :: t => some (t ++ [line])
  else some (buffer ++ [line])

/-- `(*Console).log(prefix, ...)`: append `prefix + message`. -/
def Console.log (c : Console M) (pre msg : GoStr) : Option (Console M) :=
  (goLogAppend c.bufMaxLines c.buffer (pre ++ msg)).map
    (fun b => { c with buffer := b })

/-- `LogInfof`: gated on the `LogInfo` threshold. -/
def Console.LogInfof (c : Console M) (msg : GoStr) : Option (Console M) :=
  if LogInfo > c.logLevel then some c else c.log c.logInfoPre msg

/-- `LogWarningf`.  The source gates this on the `LogInfo` threshold
(not `LogWarning`), which the embedding reproduces. -/
def Console.LogWarningf (c : Console M) (msg : GoStr) : Option (Console M) :=
  if LogInfo > c.logLevel then some c else c.log c.logWarnPre msg

/-- `LogErrorf`.  The source gates this on the `LogInfo` threshold
(not `LogError`), which the embedding reproduces. -/
def Console.LogErrorf (c : Console M) (msg : GoStr) : Option (Console M) :=
  if LogInfo > c.logLevel then some c else c.log c.logErrPre msg

/-- `LogPrintf`: no prefix, no level gate. -/
def Console.LogPrintf (c : Console M) (msg : GoStr) : Option (Console M) :=
  c.log [] msg

/-- `SetLogLevel`. -/
def Console.SetLogLevel (c : Console M) (level : Int) : Console M :=
  { c with logLevel := level }

/-- `BufferRaw`: a copy of the buffer lines. -/
def Console.BufferRaw (c : Console M) : List GoStr := c.buffer

/-- `ClearBuffer`. -/
def Console.ClearBuffer (c : Console M) : Console M := { c with buffer := [] }

/-- A sequence of `LogPrintf` calls (a panic anywhere aborts the run). -/
def logManyP (c : Console M) : List GoStr → Option (Console M)
  | [] => some c
  | m :: ms =>
    match c.LogPrintf m with
    | none => none
    | some c' => logManyP c' ms

/-- UTF-8 byte length of a rune (`len(s)` in Go counts bytes). -/
def utf8Len (c : Char) : Nat :=
  if c.val < 0x80 then 1 else if c.val < 0x800 then 2
  else if c.val < 0x10000 then 3 else 4

/-- `len(s)` for a Go string: total UTF-8 bytes. -/
def goLen (s : GoStr) : Nat := (s.map utf8Len).sum

/-- Rune grouping done by the loop in `chunks` (`fuel` keeps the
recursion structural; callers pass `s.length`). -/
def chunkListAux : Nat → GoStr → Nat → List GoStr
  | 0, s, _ => if s.isEmpty then [] else [s]
  | fuel + 1, s, n => if s.isEmpty then [] else s.take n :: chunkListAux fuel (s.drop n) n

/-- `chunks(s, chunkSize)`: early return `[s]` when `chunkSize` is at
least the byte length; a non-positive `chunkSize` reaching the loop
panics (`make` with negative length, or an out-of-range index into a
zero-length rune slice) — `none`. -/
def chunks (s : GoStr) (chunkSize : Int) : Option (List GoStr) :=
  if (goLen s : Int) ≤ chunkSize then some [s]
  else if chunkSize ≤ 0 then none
  else some (chunkListAux s.length s chunkSize.toNat)

/-- `BufferWrappedRaw(maxWidth)`: wrap each buffered line longer than
`maxWidth` runes using `chunks`. -/
def Console.BufferWrappedRaw (c : Console M) (maxWidth : Int) :
    Option (List GoStr) :=
  c.buffer.foldr
    (fun line acc =>
      match acc with
      | none => none
      | some r =>
        if (line.length : Int) > maxWidth then (chunks line maxWidth).map (· ++ r)
        else some (line :: r))
    (some [])

/-- The in-place mutation of the found convar, seen from the registry:
every entry under that name now shows the written state. -/
def updateVar (vars : List (ConVar M)) (cv : ConVar M) : List (ConVar M) :=
  vars.map (fun w => if w.varName == cv.varName then cv else w)

/-- `RegConVar`: insert or replace under the canonical name (map
semantics). -/
def Console.RegConVar (c : Console M) (cv : ConVar M) : Console M :=
  if c.vars.any (fun w => w.varName == cv.varName) then
    { c with vars := updateVar c.vars cv }
  else { c with vars := c.vars ++ [cv] }

/-- `(*Console).ConVar(name)`: canonicalize, then look up. -/
def Console.conVar (c : Console M) (varName : GoStr) : Option (ConVar M) :=
  c.vars.find? (fun w => w.varName == toLowerStr varName)

/-- `strings.Contains` (byte containment coincides with rune
containment on valid UTF-8). -/
def containsSub : GoStr → GoStr → Bool
  | [], needle => needle.isEmpty
  | c :: rest, needle => needle.isPrefixOf (c :: rest) || containsSub rest needle

/-- The collection loop of `Suggest`: append matches, returning as soon
as `n` are collected. -/
def suggestLoop : List (ConVar M) → GoStr → Int → List (ConVar M) → List (ConVar M)
  | [], _, _, acc => acc
  | cv :: rest, low, n, acc =>
    if containsSub cv.varName low then
      let acc' := acc ++ [cv]
      if (acc'.length : Int) ≥ n then acc' else suggestLoop rest low n acc'
    else suggestLoop rest low n acc

/-- `Suggest(str, n)`: empty below 3 runes, else scan for names
containing the lowercased query, stopping at `n` matches. -/
def Console.Suggest (c : Console M) (str : GoStr) (n : Int) : List (ConVar M) :=
  if str.length < 3 then [] else suggestLoop c.vars (toLowerStr str) n []

/-- Result of `(*Console).exec`: console state after the call, recorded
callback invocations, and the `(*ConVar, error)` pair it returns. -/
structure ExecOut (M : FloatModel) : Type where
  con : Console M
  calls : List (GoVal M × GoVal M)
  ret : Option (ConVar M)
  err : Option GoError

/-- The tail of `exec` once a value has been produced: call `write`,
reflect the in-place convar mutation into the registry, and mirror the
`(nil, err)` / `(cv, nil)` returns. -/
def Console.execVal (c : Console M) (cv : ConVar M) (value : GoVal M)
    (lent : Int) : ExecOut M :=
  let o := cv.write cv.varType (some value) lent
  ⟨{ c with vars := updateVar c.vars o.cv }, o.calls,
    if o.err.isNone then some o.cv else none, o.err⟩

/-- `(*Console).exec(fromFile, cmd)`: lowercase and trim, tokenize,
resolve, parse the value text by declared kind, and write. -/
def Console.exec (c : Console M) (fromFile : Bool) (cmdRaw : GoStr) : ExecOut M :=
  let cmd := trimSpace (toLowerStr cmdRaw)
  match fieldsGo cmd with
  | [] => ⟨c, [], none, none⟩
  | tok0 :: restToks =>
    if tok0 = ['#'] then ⟨c, [], none, none⟩
    else
      match c.vars.find? (fun w => w.varName == tok0) with
      | none => ⟨c, [], none, some (.varNotFound tok0)⟩
      | some cv =>
        if fromFile && cv.isFunc then ⟨c, [], none, none⟩
        else
          let lent : Int := (1 + restToks.length : Nat)
          let valStr := if restToks.isEmpty then ['0']
                        else trimSpace (cmd.drop tok0.length)
          match cv.varType with
          | .bool | .int =>
            match goAtoi valStr with
            | none => ⟨c, [], none, some (.badStringConversion valStr cv.varType)⟩
            | some n => c.execVal cv (.int n) lent
          | .float64 =>
            match M.parse valStr with
            | none => ⟨c, [], none, some (.badStringConversion valStr cv.varType)⟩
            | some f => c.execVal cv (.float f) lent
          | .str => c.execVal cv (.str (trimSpace (cmd.drop tok0.length))) lent

/-- `ExecCmd`. -/
def Console.ExecCmd (c : Console M) (cmd : GoStr) : ExecOut M := c.exec false cmd

/-- The line `Save` emits for one saved convar. -/
def lineOf (cv : ConVar M) : GoStr := cv.varName ++ ' ' :: formatVal cv.value ++ ['\n']

/-- `Save`: the file content written — one `"<name> <value>\n"` line per
registered convar whose value differs (Go `!=`) from its default and
which is not a func.  File I/O itself is outside the model. -/
def Console.Save (c : Console M) : GoStr :=
  (c.vars.map
    (fun cv => if goEq cv.value cv.valDefault || cv.isFunc then [] else lineOf cv)).flatten

/-- `bufio.ScanLines`' per-line `dropCR`. -/
def dropCR (l : GoStr) : GoStr := if l.getLast? = some '\r' then l.dropLast else l

/-- Split at newlines; `acc` holds the current line in reverse. -/
def splitNLAux : GoStr → GoStr → List GoStr
  | [], acc => [acc.reverse]
  | c :: cs, acc => if c = '\n' then acc.reverse :: splitNLAux cs [] else splitNLAux cs (c :: acc)

/-- The lines a `bufio.Scanner` with `bufio.ScanLines` yields. -/
def scanLines (content : GoStr) : List GoStr :=
  let ps := splitNLAux content []
  (if ps.getLast? = some [] then ps.dropLast else ps).map dropCR

/-- The per-line replay loop of `Load`: each line goes through
`exec(true, line)` and both return values are discarded. -/
def Console.loadLines (c : Console M) (lines : List GoStr) : Console M :=
  lines.foldl (fun c l => (c.exec true l).con) c

/-- `Load`, given the opened file's content (a failure to open the file
is the one error the Go function returns and is outside the model). -/
def Console.Load (c : Console M) (content : GoStr) : Console M :=
  c.loadLines (scanLines content)

/-- `ResetAllVar`: store each default back, no callbacks. -/
def Console.ResetAllVar (c : Console M) : Console M :=
  { c with vars := c.vars.map ConVar.Reset }


/-! ### Concrete instances used by witnesses and counterexamples -/

def c1cv : ConVar unitFloatModel :=
  ⟨"con_clear".toList, .int, [], .int 0, .int 0, true⟩

def c1con : Console unitFloatModel := ⟨[c1cv], [], 100, 3, [], [], []⟩

def c2cv : ConVar unitFloatModel :=
  ⟨"cl_width".toList, .int, [], .int 10, .int 0, false⟩

def c10cv : ConVar unitFloatModel :=
  ⟨"cl_scale".toList, .float64, [], .float (), .float (), true⟩

def c6wcon : Console unitFloatModel := ⟨[], [], 2, 3, [], [], []⟩

def c6con : Console unitFloatModel := ⟨[], [], 0, 3, [], [], []⟩

def c7wcon : Console unitFloatModel := ⟨[], [['a', 'b'], ['c']], 1, 3, [], [], []⟩

def c7con : Console unitFloatModel := ⟨[], [], 0, 3, [], [], []⟩

def c8wcon : Console unitFloatModel :=
  ⟨[⟨"cl_width".toList, .int, [], .int 0, .int 0, false⟩], [], 10, 3, [], [], []⟩

def c8con : Console unitFloatModel :=
  ⟨[⟨"cl_width".toList, .int, [], .int 0, .int 0, false⟩], [], 10, 3, [], [], []⟩

/-- Names as `NewConVar` produces and `exec` expects them: nonempty,
no space runes, already lowercase, and not the comment token. -/
def validName (n : GoStr) : Prop :=
  n ≠ [] ∧ (∀ c ∈ n, isGoSpace c = false ∧ Char.toLower c = c) ∧ n ≠ ['#']

def c9cv : ConVar unitFloatModel :=
  ⟨"cl_width".toList, .int, [], .int 10, .int 0, false⟩

def c9con : Console unitFloatModel := ⟨[c9cv], [], 100, 3, [], [], []⟩

/-- The fresh declaration of a convar: same name, kind, description,
default and func flag, with the current value back at the default (what
`NewConVar` plus `RegConVar` produce in a fresh registry). -/
def declOf (cv : ConVar M) : ConVar M := { cv with value := cv.valDefault }

/-- A stored value whose `Save` line replays to the same value: its
`%v` text is nonempty, lowercase-invariant, has no leading/trailing
space rune and no newline, compares Go-unequal to the default in the
order `write` compares, and (for numeric kinds) parses back to itself.
Every int in the 64-bit range satisfies the int clause; Go's
`FormatFloat`/`ParseFloat` round trip guarantees the float clause for
every non-NaN float; a string value satisfies the conditions exactly
when it is canonical (nonempty, trimmed, lowercase, newline-free). -/
def replayFaithful (cv : ConVar M) : Prop :=
  formatVal cv.value ≠ [] ∧
  toLowerStr (formatVal cv.value) = formatVal cv.value ∧
  (∀ ch, (formatVal cv.value).head? = some ch → isGoSpace ch = false) ∧
  (∀ ch, (formatVal cv.value).getLast? = some ch → isGoSpace ch = false) ∧
  '\n' ∉ formatVal cv.value ∧
  goEq cv.valDefault cv.value = false ∧
  (∀ n, cv.value = .int n → goAtoi (intToStr n) = some n) ∧
  (∀ f, cv.value = .float f → M.parse (M.format f) = some f)

/-- The lines `Save` emits for a list of registered convars (the body
of `Console.Save`, parameterized by the list). -/
def saveLines (vs : List (ConVar M)) : GoStr :=
  (vs.map
    (fun cv => if goEq cv.value cv.valDefault || cv.isFunc then [] else lineOf cv)).flatten

def c3cv : ConVar unitFloatModel :=
  ⟨"cl_width".toList, .int, [], .int 10, .int 0, false⟩

def c3str : ConVar unitFloatModel :=
  ⟨"cl_name".toList, .str, [], .str ("abc".toList), .str [], false⟩

def c3c1 : Console unitFloatModel := ⟨[c3cv, c3str], [], 10, 3, [], [], []⟩

def c3c2 : Console unitFloatModel :=
  ⟨[declOf c3cv, declOf c3str], [], 10, 3, [], [], []⟩

def c3xcv : ConVar unitFloatModel :=
  ⟨['s'], .str, [], .str ("ABC".toList), .str [], false⟩

def c3xc1 : Console unitFloatModel := ⟨[c3xcv], [], 10, 3, [], [], []⟩

def c3xc2 : Console unitFloatModel := ⟨[declOf c3xcv], [], 10, 3, [], [], []⟩

def c5con : Console unitFloatModel :=
  ⟨[⟨"cl_width".toList, .int, [], .int 0, .int 0, false⟩], [], 10, 3, [], [], []⟩

/-! ### Basic lemmas about `write` -/

theorem ConVar.write_varName (cv : ConVar M) (t : Kind) (v : Option (GoVal M))
    (n : Int) : (cv.write t v n).cv.varName = cv.varName := by
  cases v with
  | none => rfl
  | some v =>
    simp only [ConVar.write]
    split_ifs <;> rfl

theorem ConVar.write_isFunc_pres (cv : ConVar M) (t : Kind) (v : Option (GoVal M))
    (n : Int) : (cv.write t v n).cv.isFunc = cv.isFunc := by
  cases v with
  | none => rfl
  | some v =>
    simp only [ConVar.write]
    split_ifs <;> rfl

theorem ConVar.write_func_frame (cv : ConVar M) (h : cv.isFunc = true)
    (t : Kind) (v : Option (GoVal M)) (n : Int) :
    (cv.write t v n).cv = cv ∧ ∀ p ∈ (cv.write t v n).calls, p.1 = cv.valDefault := by
  cases v with
  | none => exact ⟨rfl, by simp [ConVar.write]⟩
  | some v =>
    simp only [ConVar.write]
    split_ifs <;> simp_all

theorem ConVar.write_err_frame (cv : ConVar M) (t : Kind) (v : Option (GoVal M))
    (n : Int) (h : (cv.write t v n).err.isSome = true) :
    (cv.write t v n).cv = cv ∧ (cv.write t v n).calls = [] := by
  cases v with
  | none => exact ⟨rfl, rfl⟩
  | some v =>
    simp only [ConVar.write] at h ⊢
    split_ifs at h ⊢ <;> simp_all

/-! ### Lemmas about `find?` and `updateVar` -/

theorem find?_updateVar_ne (vars : List (ConVar M)) (cv' : ConVar M) (b : GoStr)
    (h : cv'.varName ≠ b) :
    (updateVar vars cv').find? (fun w => w.varName == b) =
      vars.find? (fun w => w.varName == b) := by
  induction vars with
  | nil => rfl
  | cons w ws ih =>
    show ((if (w.varName == cv'.varName) = true then cv' else w) ::
      updateVar ws cv').find? (fun w => w.varName == b) = _
    by_cases hw : w.varName = cv'.varName
    · rw [if_pos (by simp [hw])]
      rw [List.find?_cons_of_neg _ (by simp [h]),
        List.find?_cons_of_neg _ (by simp [hw, h])]
      exact ih
    · rw [if_neg (by simp [hw])]
      by_cases hb : w.varName = b
      · rw [List.find?_cons_of_pos _ (by simp [hb]),
          List.find?_cons_of_pos _ (by simp [hb])]
      · rw [List.find?_cons_of_neg _ (by simp [hb]),
          List.find?_cons_of_neg _ (by simp [hb])]
        exact ih

theorem find?_updateVar_self (vars : List (ConVar M)) (cv' : ConVar M)
    (h : (vars.find? (fun w => w.varName == cv'.varName)).isSome = true) :
    (updateVar vars cv').find? (fun w => w.varName == cv'.varName) = some cv' := by
  induction vars with
  | nil => simp [List.find?] at h
  | cons w ws ih =>
    show ((if (w.varName == cv'.varName) = true then cv' else w) ::
      updateVar ws cv').find? (fun w => w.varName == cv'.varName) = _
    by_cases hw : w.varName = cv'.varName
    · rw [if_pos (by simp [hw]), List.find?_cons_of_pos _ (by simp)]
    · rw [if_neg (by simp [hw]), List.find?_cons_of_neg _ (by simp [hw])]
      rw [List.find?_cons_of_neg _ (by simp [hw])] at h
      exact ih h

theorem updateVar_of_not_mem (vars : List (ConVar M)) (cv : ConVar M)
    (h : ∀ w ∈ vars, w.varName ≠ cv.varName) : updateVar vars cv = vars := by
  induction vars with
  | nil => rfl
  | cons w ws ih =>
    show (if (w.varName == cv.varName) = true then cv else w) :: updateVar ws cv = w :: ws
    rw [if_neg (by simp [h w (by simp)]), ih (fun w' hw' => h w' (by simp [hw']))]

theorem updateVar_self (vars : List (ConVar M)) (cv : ConVar M)
    (hnodup : vars.Pairwise (fun a b => a.varName ≠ b.varName))
    (h : vars.find? (fun w => w.varName == cv.varName) = some cv) :
    updateVar vars cv = vars := by
  induction vars with
  | nil => rfl
  | cons w ws ih =>
    rw [List.pairwise_cons] at hnodup
    show (if (w.varName == cv.varName) = true then cv else w) :: updateVar ws cv = w :: ws
    by_cases hw : w.varName = cv.varName
    · rw [List.find?_cons_of_pos _ (by simp [hw])] at h
      obtain rfl : w = cv := by injection h
      rw [if_pos (by simp),
        updateVar_of_not_mem ws w (fun w' hw' => (hnodup.1 w' hw').symm)]
    · rw [List.find?_cons_of_neg _ (by simp [hw])] at h
      rw [if_neg (by simp [hw]), ih hnodup.2 h]

theorem writeSeq_func (cv : ConVar M) (h : cv.isFunc = true)
    (ops : List (Kind × Option (GoVal M) × Int)) :
    (writeSeq cv ops).1 = cv ∧ ∀ p ∈ (writeSeq cv ops).2, p.1 = cv.valDefault := by
  induction ops with
  | nil => exact ⟨rfl, by simp [writeSeq]⟩
  | cons op ops ih =>
    obtain ⟨t, v, n⟩ := op
    have hf := ConVar.write_func_frame cv h t v n
    simp only [writeSeq, hf.1]
    refine ⟨ih.1, fun p hp => ?_⟩
    rcases List.mem_append.1 hp with hp | hp
    · exact hf.2 p hp
    · exact ih.2 p hp

theorem find?_execVal_func (c : Console M) (cv cv₀ : ConVar M) (value : GoVal M)
    (lent : Int) (h : cv.isFunc = true)
    (hfind : c.vars.find? (fun w => w.varName == cv.varName) = some cv)
    (heq : c.vars.find? (fun w => w.varName == cv₀.varName) = some cv₀) :
    (c.execVal cv₀ value lent).con.vars.find? (fun w => w.varName == cv.varName) =
      some cv := by
  show (updateVar c.vars (cv₀.write cv₀.varType (some value) lent).cv).find?
    (fun w => w.varName == cv.varName) = some cv
  by_cases hnm : cv₀.varName = cv.varName
  · rw [hnm] at heq
    obtain rfl : cv₀ = cv := by
      have := heq.symm.trans hfind
      injection this
    rw [(ConVar.write_func_frame cv₀ h _ _ _).1]
    exact find?_updateVar_self _ _ (by rw [hfind]; rfl)
  · rw [find?_updateVar_ne _ _ _ (by rw [ConVar.write_varName]; exact hnm)]
    exact hfind

theorem exec_find?_func_pres (c : Console M) (cv : ConVar M) (h : cv.isFunc = true)
    (ff : Bool) (cmd : GoStr)
    (hfind : c.vars.find? (fun w => w.varName == cv.varName) = some cv) :
    (c.exec ff cmd).con.vars.find? (fun w => w.varName == cv.varName) = some cv := by
  unfold Console.exec
  dsimp only
  split
  · exact hfind
  case _ tok0 rest _ =>
    by_cases hhash : tok0 = ['#']
    · rw [if_pos hhash]
      exact hfind
    · rw [if_neg hhash]
      cases hfq : c.vars.find? (fun w => w.varName == tok0) with
      | none => simp only [hfq]; exact hfind
      | some cv₀ =>
        simp only [hfq]
        by_cases hff : (ff && cv₀.isFunc) = true
        · rw [if_pos hff]
          exact hfind
        · rw [if_neg hff]
          have htok : cv₀.varName = tok0 := by
            simpa using List.find?_some hfq
          rw [← htok] at hfq
          cases hk : cv₀.varType with
          | bool =>
            simp only [hk]
            cases hA : goAtoi (if rest.isEmpty = true then ['0']
                else trimSpace ((trimSpace (toLowerStr cmd)).drop tok0.length)) with
            | none => simp only [hA]; exact hfind
            | some n => simp only [hA]; exact find?_execVal_func c cv cv₀ _ _ h hfind hfq
          | int =>
            simp only [hk]
            cases hA : goAtoi (if rest.isEmpty = true then ['0']
                else trimSpace ((trimSpace (toLowerStr cmd)).drop tok0.length)) with
            | none => simp only [hA]; exact hfind
            | some n => simp only [hA]; exact find?_execVal_func c cv cv₀ _ _ h hfind hfq
          | float64 =>
            simp only [hk]
            cases hA : M.parse (if rest.isEmpty = true then ['0']
                else trimSpace ((trimSpace (toLowerStr cmd)).drop tok0.length)) with
            | none => simp only [hA]; exact hfind
            | some f => simp only [hA]; exact find?_execVal_func c cv cv₀ _ _ h hfind hfq
          | str =>
            simp only [hk]
            exact find?_execVal_func c cv cv₀ _ _ h hfind hfq

/-! ### Lemmas about the string helpers -/

theorem toLowerStr_eq_self {l : GoStr} (h : ∀ c ∈ l, Char.toLower c = c) :
    toLowerStr l = l := by
  induction l with
  | nil => rfl
  | cons c cs ih =>
    show Char.toLower c :: toLowerStr cs = c :: cs
    rw [h c (by simp), ih (fun c' hc' => h c' (by simp [hc']))]

theorem dropWhile_space_eq_self {l : GoStr}
    (h : ∀ c, l.head? = some c → isGoSpace c = false) :
    l.dropWhile isGoSpace = l := by
  cases l with
  | nil => rfl
  | cons c cs => exact List.dropWhile_cons_of_neg (by simp [h c rfl])

theorem trimSpace_eq_self {l : GoStr}
    (h1 : ∀ c, l.head? = some c → isGoSpace c = false)
    (h2 : ∀ c, l.getLast? = some c → isGoSpace c = false) : trimSpace l = l := by
  unfold trimSpace
  rw [dropWhile_space_eq_self h1,
    dropWhile_space_eq_self (fun c hc => h2 c (by rw [← List.head?_reverse]; exact hc)),
    List.reverse_reverse]

theorem trimSpace_space_cons (s : GoStr) : trimSpace (' ' :: s) = trimSpace s := by
  unfold trimSpace
  rw [List.dropWhile_cons_of_pos (by rfl)]

theorem fieldsAux_all_nonspace (l : GoStr) (acc : GoStr)
    (h : ∀ c ∈ l, isGoSpace c = false) (hne : acc ≠ [] ∨ l ≠ []) :
    fieldsAux l acc = [acc.reverse ++ l] := by
  induction l generalizing acc with
  | nil =>
    rcases hne with hacc | hl
    · show (if acc.isEmpty then [] else [acc.reverse]) = [acc.reverse ++ []]
      rw [if_neg (by simp [List.isEmpty_iff, hacc]), List.append_nil]
    · exact absurd rfl hl
  | cons c cs ih =>
    show (if isGoSpace c = true then _ else fieldsAux cs (c :: acc)) = _
    rw [if_neg (by simp [h c (by simp)]),
      ih (c :: acc) (fun c' h' => h c' (by simp [h'])) (Or.inl (by simp))]
    simp

theorem fieldsGo_single (l : GoStr) (hne : l ≠ [])
    (h : ∀ c ∈ l, isGoSpace c = false) : fieldsGo l = [l] := by
  simpa [fieldsGo] using fieldsAux_all_nonspace l [] h (Or.inr hne)

theorem fieldsAux_token_space (name rest acc : GoStr)
    (h : ∀ c ∈ name, isGoSpace c = false) (hne : acc ≠ [] ∨ name ≠ []) :
    fieldsAux (name ++ ' ' :: rest) acc = (acc.reverse ++ name) :: fieldsAux rest [] := by
  induction name generalizing acc with
  | nil =>
    rcases hne with hacc | hn
    · show (if isGoSpace ' ' = true then
          if acc.isEmpty then fieldsAux rest [] else acc.reverse :: fieldsAux rest []
        else _) = _
      rw [if_pos (show isGoSpace ' ' = true from rfl),
        if_neg (by simp [List.isEmpty_iff, hacc]), List.append_nil]
    · exact absurd rfl hn
  | cons c cs ih =>
    show (if isGoSpace c = true then _ else fieldsAux (cs ++ ' ' :: rest) (c :: acc)) = _
    rw [if_neg (by simp [h c (by simp)]),
      ih (c :: acc) (fun c' h' => h c' (by simp [h'])) (Or.inl (by simp))]
    simp

theorem fieldsGo_name_value (name rest : GoStr) (hnne : name ≠ [])
    (h : ∀ c ∈ name, isGoSpace c = false) :
    fieldsGo (name ++ ' ' :: rest) = name :: fieldsGo rest := by
  simpa [fieldsGo] using fieldsAux_token_space name rest [] h (Or.inr hnne)

theorem fieldsAux_ne_nil (l : GoStr) (acc : GoStr) (hacc : acc ≠ []) :
    fieldsAux l acc ≠ [] := by
  induction l generalizing acc with
  | nil =>
    show (if acc.isEmpty then [] else [acc.reverse]) ≠ []
    rw [if_neg (by simp [List.isEmpty_iff, hacc])]
    simp
  | cons c cs ih =>
    show (if isGoSpace c = true then
        if acc.isEmpty then fieldsAux cs [] else acc.reverse :: fieldsAux cs []
      else fieldsAux cs (c :: acc)) ≠ []
    by_cases hc : isGoSpace c = true
    · rw [if_pos hc, if_neg (by simp [List.isEmpty_iff, hacc])]
      simp
    · rw [if_neg hc]
      exact ih (c :: acc) (by simp)

theorem fieldsGo_ne_nil (l : GoStr) (hne : l ≠ [])
    (hhead : ∀ c, l.head? = some c → isGoSpace c = false) : fieldsGo l ≠ [] := by
  cases l with
  | nil => exact absurd rfl hne
  | cons c cs =>
    show (if isGoSpace c = true then _ else fieldsAux cs [c]) ≠ []
    rw [if_neg (by simp [hhead c rfl])]
    exact fieldsAux_ne_nil cs [c] (by simp)

/-! ### Claim theorems -/

/-- Claim C1. For every variable constructed with `isFunc` true, the stored
value is immutable: a single `write` (the operation behind `Execute` and
every `SetX` wrapper) leaves the convar state unchanged and reports the
callback with `(defaultValue, suppliedValue)`; any sequence of writes
leaves the state unchanged with every callback reporting the default as
previous value; `Reset` stores the default; and any `Execute` call on a
console registering the variable leaves it unchanged in the registry. -/
theorem NewConVar_value_default (nm d : GoStr) (t0 : Kind) (isF : Bool)
    (dflt : GoVal M) (cv0 : ConVar M) (h : NewConVar nm t0 isF d dflt = some cv0) :
    cv0.value = cv0.valDefault := by
  unfold NewConVar at h
  split_ifs at h
  injection h with h
  rw [← h]

theorem c1_command_type_value_immutable (cv : ConVar M) (h : cv.isFunc = true)
    (t : Kind) (v : Option (GoVal M)) (n : Int)
    (ops : List (Kind × Option (GoVal M) × Int))
    (c : Console M) (ff : Bool) (cmd : GoStr)
    (hfind : c.vars.find? (fun w => w.varName == cv.varName) = some cv) :
    (∀ (nm d : GoStr) (t0 : Kind) (dflt : GoVal M) (cv0 : ConVar M),
      NewConVar nm t0 true d dflt = some cv0 → cv0.value = cv0.valDefault) ∧
    (cv.write t v n).cv = cv ∧
    (∀ p ∈ (cv.write t v n).calls, p.1 = cv.valDefault) ∧
    (writeSeq cv ops).1 = cv ∧
    (∀ p ∈ (writeSeq cv ops).2, p.1 = cv.valDefault) ∧
    cv.Reset.value = cv.valDefault ∧
    (c.exec ff cmd).con.vars.find? (fun w => w.varName == cv.varName) = some cv :=
  ⟨fun nm d t0 dflt cv0 h0 => NewConVar_value_default nm d t0 true dflt cv0 h0,
   (ConVar.write_func_frame cv h t v n).1, (ConVar.write_func_frame cv h t v n).2,
   (writeSeq_func cv h ops).1, (writeSeq_func cv h ops).2, rfl,
   exec_find?_func_pres c cv h ff cmd hfind⟩

theorem c1_witness :
    (∀ (nm d : GoStr) (t0 : Kind) (dflt : GoVal unitFloatModel) (cv0 : ConVar unitFloatModel),
      NewConVar nm t0 true d dflt = some cv0 → cv0.value = cv0.valDefault) ∧
    (c1cv.write .int (some (.int 5)) 2).cv = c1cv ∧
    (∀ p ∈ (c1cv.write .int (some (.int 5)) 2).calls, p.1 = c1cv.valDefault) ∧
    (writeSeq c1cv [(.int, some (.int 5), 2), (.int, some (.int 9), 2)]).1 = c1cv ∧
    (∀ p ∈ (writeSeq c1cv [(.int, some (.int 5), 2), (.int, some (.int 9), 2)]).2,
      p.1 = c1cv.valDefault) ∧
    c1cv.Reset.value = c1cv.valDefault ∧
    (c1con.exec false ("con_clear 1".toList)).con.vars.find?
      (fun w => w.varName == c1cv.varName) = some c1cv :=
  c1_command_type_value_immutable c1cv rfl .int (some (.int 5)) 2
    [(.int, some (.int 5), 2), (.int, some (.int 9), 2)] c1con false
    ("con_clear 1".toList) rfl

/-- Claim C2. For a non-command variable written through the full-argument
path (`argc = 2`, as in `Execute` with a value token or any `SetX`): a
same-valued write leaves the state unchanged and fires no callback; a
different value is stored and the one callback `(old, new)` fires; and
the second of two identical writes fires no callback (so two identical
assignments fire the callback exactly once, by the second conjunct). -/
theorem c2_same_value_write_is_noop (cv : ConVar M) (v : GoVal M) (lent : Int)
    (hf : cv.isFunc = false) (hk : kindOf v = cv.varType) (hge : ¬lent < 2) :
    (goEq cv.value v = true →
      cv.write cv.varType (some v) lent = ⟨cv, [], none⟩) ∧
    (goEq cv.value v = false →
      cv.write cv.varType (some v) lent = ⟨{ cv with value := v }, [(cv.value, v)], none⟩) ∧
    (goEq v v = true →
      ((cv.write cv.varType (some v) lent).cv.write cv.varType (some v) lent).calls = [] ∧
      ((cv.write cv.varType (some v) lent).cv.write cv.varType (some v) lent).cv =
        (cv.write cv.varType (some v) lent).cv) := by
  have hknot : ¬(kindOf v ≠ cv.varType) := by simp [hk]
  have hA : goEq cv.value v = true → cv.write cv.varType (some v) lent = ⟨cv, [], none⟩ := by
    intro hq
    simp only [ConVar.write]
    rw [if_neg hknot, if_neg (by simp), if_neg (by simp [hf]), if_neg hge, if_pos hq]
  have hB : goEq cv.value v = false →
      cv.write cv.varType (some v) lent = ⟨{ cv with value := v }, [(cv.value, v)], none⟩ := by
    intro hq
    simp only [ConVar.write]
    rw [if_neg hknot, if_neg (by simp), if_neg (by simp [hf]), if_neg hge,
      if_neg (by simp [hq])]
  refine ⟨hA, hB, fun hvv => ?_⟩
  cases hgoe : goEq cv.value v with
  | true => simp [hA hgoe]
  | false =>
    rw [hB hgoe]
    have hsecond : ({ cv with value := v } : ConVar M).write cv.varType (some v) lent =
        ⟨{ cv with value := v }, [], none⟩ := by
      simp only [ConVar.write]
      rw [if_neg hknot, if_neg (by simp), if_neg (by simp [hf]), if_neg hge,
        if_pos (show goEq ({ cv with value := v } : ConVar M).value v = true from hvv)]
    rw [hsecond]
    exact ⟨rfl, rfl⟩

theorem c2_witness :
    c2cv.write c2cv.varType (some (.int 10)) 2 = ⟨c2cv, [], none⟩ ∧
    ((c2cv.write c2cv.varType (some (.int 7)) 2).cv.write c2cv.varType
      (some (.int 7)) 2).calls = [] :=
  ⟨(c2_same_value_write_is_noop c2cv (.int 10) 2 rfl rfl (by decide)).1 (by decide),
   ((c2_same_value_write_is_noop c2cv (.int 7) 2 rfl rfl (by decide)).2.2 (by decide)).1⟩

/-- Claim C10. Whenever `write` returns an error (nil value, supplied
kind/value mismatch, supplied kind/declared kind mismatch), the convar
state is unchanged and no callback was invoked — for command-type
variables as well, since their callback runs after all error checks. -/
theorem c10_write_error_frame (cv : ConVar M) (t : Kind) (v : Option (GoVal M))
    (n : Int) (e : GoError) (h : (cv.write t v n).err = some e) :
    (cv.write t v n).cv = cv ∧ (cv.write t v n).calls = [] :=
  ConVar.write_err_frame cv t v n (by rw [h]; rfl)

theorem goLogAppend_isSome (max : Int) (b : List GoStr) (l : GoStr)
    (hmax : 1 ≤ max) : (goLogAppend max b l).isSome = true := by
  unfold goLogAppend
  by_cases hge : (b.length : Int) ≥ max
  · rw [if_pos hge]
    cases b with
    | nil => simp at hge; omega
    | cons b0 bt => rfl
  · rw [if_neg hge]
    rfl

theorem log_isSome (c : Console M) (pre msg : GoStr) (hmax : 1 ≤ c.bufMaxLines) :
    (c.log pre msg).isSome = true := by
  unfold Console.log
  have hs := goLogAppend_isSome c.bufMaxLines c.buffer (pre ++ msg) hmax
  rcases Option.isSome_iff_exists.1 hs with ⟨b, hb⟩
  rw [hb]
  rfl

theorem chunks_isSome (s : GoStr) (w : Int) (hw : 1 ≤ w) :
    (chunks s w).isSome = true := by
  unfold chunks
  split_ifs with h1 h2
  · rfl
  · omega
  · rfl

theorem bufferWrappedRaw_isSome (c : Console M) (maxWidth : Int)
    (hw : 1 ≤ maxWidth) : (c.BufferWrappedRaw maxWidth).isSome = true := by
  unfold Console.BufferWrappedRaw
  generalize c.buffer = lines
  induction lines with
  | nil => rfl
  | cons line rest ih =>
    rw [List.foldr_cons]
    rcases Option.isSome_iff_exists.1 ih with ⟨r, hr⟩
    rw [hr]
    dsimp only
    by_cases hlen : (line.length : Int) > maxWidth
    · rw [if_pos hlen]
      rcases Option.isSome_iff_exists.1 (chunks_isSome line maxWidth hw) with ⟨cs, hcs⟩
      rw [hcs]
      rfl
    · rw [if_neg hlen]
      rfl

/-- Claim C4, evaluation at the failing input. At `logLevel = LogInfo` the source *does* record a
warning and an error message (all three helpers gate on the `LogInfo`
threshold), although `LogWarning ≤ logLevel` and `LogError ≤ logLevel`
are both false there — the behaviour the claim (and the log level
constants' own documentation) rules out. -/
theorem c4_warning_recorded_at_info_level :
    Console.LogWarningf (⟨[], [], 10, LogInfo, [], "warn: ".toList, "err: ".toList⟩ :
        Console unitFloatModel) ("boom".toList) =
      some ⟨[], ["warn: boom".toList], 10, LogInfo, [], "warn: ".toList, "err: ".toList⟩ ∧
    Console.LogErrorf (⟨[], [], 10, LogInfo, [], "warn: ".toList, "err: ".toList⟩ :
        Console unitFloatModel) ("boom".toList) =
      some ⟨[], ["err: boom".toList], 10, LogInfo, [], "warn: ".toList, "err: ".toList⟩ ∧
    ¬(LogWarning ≤ LogInfo) ∧ ¬(LogError ≤ LogInfo) :=
  ⟨rfl, rfl, by decide, by decide⟩

theorem logManyP_bounded (msgs : List GoStr) (c : Console M)
    (hmax : 1 ≤ c.bufMaxLines) (hlen : c.buffer.length ≤ c.bufMaxLines.toNat) :
    logManyP c msgs = some { c with buffer := (c.buffer ++ msgs).drop (c.buffer.length + msgs.length - c.bufMaxLines.toNat) } := by
  induction msgs generalizing c with
  | nil => simp [logManyP, Nat.sub_eq_zero_of_le hlen]
  | cons m ms ih =>
    simp only [logManyP, Console.LogPrintf, Console.log, goLogAppend, List.nil_append]
    by_cases hge : (c.buffer.length : Int) ≥ c.bufMaxLines
    · rw [if_pos hge]
      cases hbuf : c.buffer with
      | nil => rw [hbuf] at hge; simp at hge; omega
      | cons b0 bt =>
        rw [hbuf] at hge hlen
        dsimp only [Option.map]
        rw [ih { c with buffer := bt ++ [m] } hmax (by simp at hlen ⊢; omega)]
        congr 1
        congr 1
        have hA : (bt ++ [m]).length + ms.length - c.bufMaxLines.toNat = ms.length := by
          simp at hge hlen ⊢; omega
        have hB : (b0 :: bt).length + (m :: ms).length - c.bufMaxLines.toNat =
            ms.length + 1 := by
          simp at hge hlen ⊢; omega
        rw [hA, hB, List.cons_append, List.drop_succ_cons, List.append_assoc,
          List.singleton_append]
    · rw [if_neg hge]
      dsimp only [Option.map]
      rw [ih { c with buffer := c.buffer ++ [m] } hmax (by simp; omega)]
      congr 1
      congr 1
      have hA : (c.buffer ++ [m]).length + ms.length - c.bufMaxLines.toNat =
          c.buffer.length + (m :: ms).length - c.bufMaxLines.toNat := by
        simp; omega
      rw [hA, List.append_assoc, List.singleton_append]

/-- Claim C6, amended with `maxLines ≥ 1`. Starting from an empty buffer with
`bufMaxLines ≥ 1`, logging `maxLines + k` messages succeeds and leaves
exactly the most recent `maxLines` messages, in order.  (For
`maxLines ≤ 0` the first logged message panics instead, see the
counterexample.) -/
theorem c6_bounded_buffer (c : Console M) (msgs : List GoStr) (k : Nat)
    (hmax : 1 ≤ c.bufMaxLines) (hempty : c.buffer = [])
    (hlen : msgs.length = c.bufMaxLines.toNat + k) :
    ∃ c', logManyP c msgs = some c' ∧ c'.BufferRaw = msgs.drop k ∧
      c'.BufferRaw.length = c.bufMaxLines.toNat := by
  have hb := logManyP_bounded msgs c hmax (by simp [hempty])
  refine ⟨_, hb, ?_, ?_⟩
  · show (c.buffer ++ msgs).drop (c.buffer.length + msgs.length - c.bufMaxLines.toNat) =
      msgs.drop k
    rw [hempty]
    simp only [List.nil_append, List.length_nil]
    congr 1
    omega
  · show ((c.buffer ++ msgs).drop (c.buffer.length + msgs.length - c.bufMaxLines.toNat)).length =
      c.bufMaxLines.toNat
    rw [hempty]
    simp only [List.nil_append, List.length_nil, List.length_drop]
    omega

theorem c6_witness :
    ∃ c' : Console unitFloatModel, logManyP c6wcon [['a'], ['b'], ['c']] = some c' ∧
      c'.BufferRaw = [['a'], ['b'], ['c']].drop 1 ∧
      c'.BufferRaw.length = c6wcon.bufMaxLines.toNat :=
  c6_bounded_buffer c6wcon [['a'], ['b'], ['c']] 1 (by decide) rfl (by decide)

/-- Claim C6, counterexample. With `maxLines = 0` and `k = 1` the claim
asserts a snapshot with 0 entries; instead the single logging call hits
the `buffer[1:]` slice panic on the empty buffer. -/
theorem c6_counterexample :
    ¬ ∃ c' : Console unitFloatModel, logManyP c6con [['a']] = some c' ∧
      c'.BufferRaw.length = c6con.bufMaxLines.toNat := by
  rintro ⟨c', hc, -⟩
  have hn : logManyP c6con [['a']] = none := rfl
  rw [hn] at hc
  exact Option.noConfusion hc

/-- Claim C7, amended. No modelled operation panics at runtime provided
the console was constructed with `bufMaxLines ≥ 1` and any wrapping
width is ≥ 1: every logging entry point returns, `chunks` returns, and
buffer wrapping returns.  (All remaining operations — `write`, the
accessors, `exec`, `Suggest`, `Save`/`Load` — are total functions of the
embedding with no panic case at all.)  Without those bounds the `log`
slice shift panics, see the counterexample. -/
theorem c7_no_panic_with_positive_config (c : Console M) (pre msg : GoStr)
    (s : GoStr) (w maxWidth : Int) :
    (1 ≤ c.bufMaxLines → (c.log pre msg).isSome = true) ∧
    (1 ≤ c.bufMaxLines → (c.LogInfof msg).isSome = true) ∧
    (1 ≤ c.bufMaxLines → (c.LogWarningf msg).isSome = true) ∧
    (1 ≤ c.bufMaxLines → (c.LogErrorf msg).isSome = true) ∧
    (1 ≤ c.bufMaxLines → (c.LogPrintf msg).isSome = true) ∧
    (1 ≤ w → (chunks s w).isSome = true) ∧
    (1 ≤ maxWidth → (c.BufferWrappedRaw maxWidth).isSome = true) := by
  refine ⟨fun h => log_isSome c pre msg h, fun h => ?_, fun h => ?_, fun h => ?_,
    fun h => log_isSome c [] msg h, fun h => chunks_isSome s w h,
    fun h => bufferWrappedRaw_isSome c maxWidth h⟩
  · unfold Console.LogInfof
    split_ifs
    · rfl
    · exact log_isSome c _ msg h
  · unfold Console.LogWarningf
    split_ifs
    · rfl
    · exact log_isSome c _ msg h
  · unfold Console.LogErrorf
    split_ifs
    · rfl
    · exact log_isSome c _ msg h

theorem c7_witness :
    (Console.log c7wcon [] ['m']).isSome = true ∧
    (chunks ("hello".toList) 2).isSome = true ∧
    (Console.BufferWrappedRaw c7wcon 1).isSome = true :=
  ⟨(c7_no_panic_with_positive_config c7wcon [] ['m'] [] 2 1).1 (by decide),
   (c7_no_panic_with_positive_config c7wcon [] ['m'] ("hello".toList) 2 1).2.2.2.2.2.1
     (by decide),
   (c7_no_panic_with_positive_config c7wcon [] ['m'] [] 2 1).2.2.2.2.2.2 (by decide)⟩

/-- Claim C7, counterexample. A console constructed with `bufMaxLines = 0`
panics on its first logging call (the `buffer[1:]` shift of an empty
slice), so "no operation panics for any console configuration" fails. -/
theorem c7_counterexample : Console.log c7con [] ['x'] = none := rfl

theorem c10_witness :
    (c10cv.write .float64 none 2).err = some GoError.nilValue ∧
    ((c10cv.write .float64 none 2).cv = c10cv ∧
      (c10cv.write .float64 none 2).calls = []) :=
  ⟨rfl, c10_write_error_frame c10cv .float64 none 2 .nilValue rfl⟩

theorem suggestLoop_mem (rest : List (ConVar M)) (low : GoStr) (n : Int)
    (acc : List (ConVar M))
    (hacc : ∀ cv ∈ acc, containsSub cv.varName low = true) :
    ∀ cv ∈ suggestLoop rest low n acc, containsSub cv.varName low = true := by
  induction rest generalizing acc with
  | nil => exact hacc
  | cons w ws ih =>
    intro cv hcv
    by_cases hc : containsSub w.varName low = true
    · have hacc' : ∀ cv ∈ acc ++ [w], containsSub cv.varName low = true := by
        intro x hx
        rcases List.mem_append.1 hx with hx | hx
        · exact hacc x hx
        · rw [List.mem_singleton.1 hx]
          exact hc
      rw [show suggestLoop (w :: ws) low n acc =
          if ((acc ++ [w]).length : Int) ≥ n then acc ++ [w]
          else suggestLoop ws low n (acc ++ [w]) from by
        show (if containsSub w.varName low = true then _ else _) = _
        rw [if_pos hc]] at hcv
      split_ifs at hcv
      · exact hacc' cv hcv
      · exact ih (acc ++ [w]) hacc' cv hcv
    · rw [show suggestLoop (w :: ws) low n acc = suggestLoop ws low n acc from by
        show (if containsSub w.varName low = true then _ else _) = _
        rw [if_neg hc]] at hcv
      exact ih acc hacc cv hcv

theorem suggestLoop_bound (rest : List (ConVar M)) (low : GoStr) (n : Int)
    (acc : List (ConVar M)) (hacc : (acc.length : Int) < n) :
    ((suggestLoop rest low n acc).length : Int) ≤ n := by
  induction rest generalizing acc with
  | nil => exact le_of_lt hacc
  | cons w ws ih =>
    by_cases hc : containsSub w.varName low = true
    · rw [show suggestLoop (w :: ws) low n acc =
          if ((acc ++ [w]).length : Int) ≥ n then acc ++ [w]
          else suggestLoop ws low n (acc ++ [w]) from by
        show (if containsSub w.varName low = true then _ else _) = _
        rw [if_pos hc]]
      split_ifs with hge
      · simp only [List.length_append, List.length_cons, List.length_nil]
        push_cast
        omega
      · exact ih (acc ++ [w]) (by simp at hge ⊢; omega)
    · rw [show suggestLoop (w :: ws) low n acc = suggestLoop ws low n acc from by
        show (if containsSub w.varName low = true then _ else _) = _
        rw [if_neg hc]]
      exact ih acc hacc

/-- Claim C8, amended with `limit ≥ 1` for the size bound. `Suggest` returns
the empty list whenever the query has fewer than 3 runes; every returned
variable's canonical name contains the lowercased query; and for
`limit ≥ 1` at most `limit` variables are returned.  (For `limit ≤ 0`
the loop still returns the first match, see the counterexample.) -/
theorem c8_suggest_threshold_and_bound (c : Console M) (str : GoStr) (n : Int) :
    (str.length < 3 → c.Suggest str n = []) ∧
    (∀ cv ∈ c.Suggest str n, containsSub cv.varName (toLowerStr str) = true) ∧
    (1 ≤ n → ((c.Suggest str n).length : Int) ≤ n) := by
  refine ⟨fun h => by simp [Console.Suggest, h], ?_, fun hn => ?_⟩
  · intro cv hcv
    unfold Console.Suggest at hcv
    split_ifs at hcv with h3
    · simp at hcv
    · exact suggestLoop_mem c.vars (toLowerStr str) n [] (by simp) cv hcv
  · unfold Console.Suggest
    split_ifs with h3
    · simp
      omega
    · exact suggestLoop_bound c.vars (toLowerStr str) n [] (by simp; omega)

theorem c8_witness :
    Console.Suggest c8wcon ("ab".toList) 5 = [] ∧
    (∀ cv ∈ Console.Suggest c8wcon ("cl_".toList) 5,
      containsSub cv.varName (toLowerStr ("cl_".toList)) = true) ∧
    ((Console.Suggest c8wcon ("cl_".toList) 5).length : Int) ≤ 5 :=
  ⟨(c8_suggest_threshold_and_bound c8wcon ("ab".toList) 5).1 (by decide),
   (c8_suggest_threshold_and_bound c8wcon ("cl_".toList) 5).2.1,
   (c8_suggest_threshold_and_bound c8wcon ("cl_".toList) 5).2.2 (by decide)⟩

/-- Claim C8, counterexample. With `limit = 0` and one matching variable,
`Suggest` returns 1 variable — more than `limit` — because the length
check runs only after a match is appended. -/
theorem c8_counterexample :
    (Console.Suggest c8con ("cl_".toList) 0).length = 1 ∧ ¬((1 : Int) ≤ 0) :=
  ⟨by decide, by decide⟩

theorem write_bare_noop (cv : ConVar M) (value : GoVal M) (lent : Int)
    (hk : kindOf value = cv.varType) (hf : cv.isFunc = false) (hlt : lent < 2) :
    cv.write cv.varType (some value) lent = ⟨cv, [], none⟩ := by
  simp only [ConVar.write]
  rw [if_neg (by simp [hk]), if_neg (by simp), if_neg (by simp [hf]), if_pos hlt]

theorem execVal_noop (c : Console M) (cv : ConVar M) (value : GoVal M) (lent : Int)
    (hnodup : c.vars.Pairwise (fun a b => a.varName ≠ b.varName))
    (hfind : c.vars.find? (fun w => w.varName == cv.varName) = some cv)
    (hw : cv.write cv.varType (some value) lent = ⟨cv, [], none⟩) :
    c.execVal cv value lent = ⟨c, [], some cv, none⟩ := by
  unfold Console.execVal
  dsimp only
  rw [hw]
  dsimp only
  rw [updateVar_self c.vars cv hnodup hfind]
  rfl

/-- Claim C9. Executing a bare registered name (no value token, not a
command variable, any supported kind) returns the variable with no
error, records no callback, and leaves the console unchanged, because
the argument count 1 is below 2.  (The float hypothesis supplies the
fact, true of Go's `strconv.ParseFloat`, that the text `"0"` parses.) -/
theorem c9_bare_name_is_noop (c : Console M) (cv : ConVar M) (name : GoStr)
    (hname : validName name)
    (hnodup : c.vars.Pairwise (fun a b => a.varName ≠ b.varName))
    (hfind : c.vars.find? (fun w => w.varName == name) = some cv)
    (hf : cv.isFunc = false)
    (hsup : cv.varType = .int ∨ cv.varType = .float64 ∨ cv.varType = .str)
    (hfl : cv.varType = .float64 → (M.parse ['0']).isSome = true) :
    c.exec false name = ⟨c, [], some cv, none⟩ := by
  obtain ⟨hne, hchars, hhash⟩ := hname
  have hlow : toLowerStr name = name := toLowerStr_eq_self (fun ch hc => (hchars ch hc).2)
  have htrim : trimSpace name = name := trimSpace_eq_self
    (fun ch hc => (hchars ch (List.mem_of_mem_head? (by rw [hc]; rfl))).1)
    (fun ch hc => (hchars ch (List.mem_of_getLast?_eq_some hc)).1)
  have hfields : fieldsGo name = [name] :=
    fieldsGo_single name hne (fun ch hc => (hchars ch hc).1)
  have hfindcv : c.vars.find? (fun w => w.varName == cv.varName) = some cv := by
    have hnm : cv.varName = name := by simpa using List.find?_some hfind
    rw [hnm]
    exact hfind
  unfold Console.exec
  dsimp only
  rw [hlow, htrim]
  simp only [hfields]
  rw [if_neg hhash]
  simp only [hfind]
  rw [if_neg (by simp)]
  rw [if_pos (show ([] : List GoStr).isEmpty = true from rfl)]
  rcases hsup with hk | hk | hk
  · simp only [hk, show goAtoi ['0'] = some (0 : Int) from rfl]
    exact execVal_noop c cv (.int 0) _ hnodup hfindcv
      (write_bare_noop cv (.int 0) _ (by rw [hk]; rfl) hf (by decide))
  · rcases Option.isSome_iff_exists.1 (hfl hk) with ⟨f, hfp⟩
    simp only [hk, hfp]
    exact execVal_noop c cv (.float f) _ hnodup hfindcv
      (write_bare_noop cv (.float f) _ (by rw [hk]; rfl) hf (by decide))
  · simp only [hk, List.drop_length, show trimSpace ([] : GoStr) = [] from rfl]
    exact execVal_noop c cv (.str []) _ hnodup hfindcv
      (write_bare_noop cv (.str []) _ (by rw [hk]; rfl) hf (by decide))

theorem c9_witness :
    Console.exec c9con false ("cl_width".toList) = ⟨c9con, [], some c9cv, none⟩ :=
  c9_bare_name_is_noop c9con c9cv ("cl_width".toList)
    ⟨by decide, by decide, by decide⟩ (by simp [c9con]) rfl rfl (Or.inl rfl)
    (fun h => nomatch h)

theorem execVal_err_frame (c : Console M) (cv₀ : ConVar M) (value : GoVal M)
    (lent : Int)
    (hnodup : c.vars.Pairwise (fun a b => a.varName ≠ b.varName))
    (hfq : c.vars.find? (fun w => w.varName == cv₀.varName) = some cv₀)
    (herr : (c.execVal cv₀ value lent).err.isSome = true) :
    (c.execVal cv₀ value lent).con = c := by
  unfold Console.execVal at herr ⊢
  dsimp only at herr ⊢
  have hw := ConVar.write_err_frame cv₀ cv₀.varType (some value) lent herr
  rw [hw.1, updateVar_self c.vars cv₀ hnodup hfq]

theorem exec_err_frame (c : Console M) (ff : Bool) (cmd : GoStr)
    (hnodup : c.vars.Pairwise (fun a b => a.varName ≠ b.varName))
    (herr : (c.exec ff cmd).err.isSome = true) :
    (c.exec ff cmd).con = c := by
  unfold Console.exec at herr ⊢
  dsimp only at herr ⊢
  cases hT : fieldsGo (trimSpace (toLowerStr cmd)) with
  | nil => rfl
  | cons tok0 rest =>
    simp only [hT] at herr ⊢
    by_cases hhash : tok0 = ['#']
    · rw [if_pos hhash]
    · rw [if_neg hhash] at herr ⊢
      cases hfq : c.vars.find? (fun w => w.varName == tok0) with
      | none => simp only [hfq]
      | some cv₀ =>
        simp only [hfq] at herr ⊢
        by_cases hff : (ff && cv₀.isFunc) = true
        · rw [if_pos hff]
        · rw [if_neg hff] at herr ⊢
          have htok : cv₀.varName = tok0 := by simpa using List.find?_some hfq
          rw [← htok] at hfq
          cases hk : cv₀.varType with
          | bool =>
            simp only [hk] at herr ⊢
            cases hA : goAtoi (if rest.isEmpty = true then ['0']
                else trimSpace ((trimSpace (toLowerStr cmd)).drop tok0.length)) with
            | none => simp only [hA]
            | some n =>
              simp only [hA] at herr ⊢
              exact execVal_err_frame c cv₀ _ _ hnodup hfq herr
          | int =>
            simp only [hk] at herr ⊢
            cases hA : goAtoi (if rest.isEmpty = true then ['0']
                else trimSpace ((trimSpace (toLowerStr cmd)).drop tok0.length)) with
            | none => simp only [hA]
            | some n =>
              simp only [hA] at herr ⊢
              exact execVal_err_frame c cv₀ _ _ hnodup hfq herr
          | float64 =>
            simp only [hk] at herr ⊢
            cases hA : M.parse (if rest.isEmpty = true then ['0']
                else trimSpace ((trimSpace (toLowerStr cmd)).drop tok0.length)) with
            | none => simp only [hA]
            | some f =>
              simp only [hA] at herr ⊢
              exact execVal_err_frame c cv₀ _ _ hnodup hfq herr
          | str =>
            simp only [hk] at herr ⊢
            exact execVal_err_frame c cv₀ _ _ hnodup hfq herr

/-- Claim C5. `Load` replays each line through `exec(fromFile = true)` and
discards the per-line result: a failing line neither aborts the
remaining lines nor changes the console, and `Load` (given the opened
file's content — a failure to open the file is the only error the Go
function returns, and is outside the model) just folds the scanner's
lines through the executor. -/
theorem c5_load_swallows_line_errors (c : Console M) (l : GoStr)
    (ls : List GoStr) (content : GoStr) (e : GoError)
    (hnodup : c.vars.Pairwise (fun a b => a.varName ≠ b.varName))
    (herr : (c.exec true l).err = some e) :
    Console.loadLines c (l :: ls) = Console.loadLines ((c.exec true l).con) ls ∧
    (c.exec true l).con = c ∧
    Console.loadLines c (l :: ls) = Console.loadLines c ls ∧
    c.Load content = Console.loadLines c (scanLines content) := by
  have hcon : (c.exec true l).con = c := exec_err_frame c true l hnodup (by rw [herr]; rfl)
  refine ⟨rfl, hcon, ?_, rfl⟩
  show Console.loadLines ((c.exec true l).con) ls = Console.loadLines c ls
  rw [hcon]

theorem digitChar_mem (m : Nat) (hm : m < 10) :
    Char.ofNat (48 + m) ∈ (['0', '1', '2', '3', '4', '5', '6', '7', '8', '9'] : GoStr) := by
  interval_cases m <;> decide

theorem digitChar_facts {c : Char}
    (h : c ∈ (['0', '1', '2', '3', '4', '5', '6', '7', '8', '9'] : GoStr)) :
    c.isDigit = true ∧ c ≠ '-' ∧ c ≠ '+' ∧ isGoSpace c = false ∧
      Char.toLower c = c ∧ c ≠ '\n' := by
  fin_cases h <;> exact ⟨by decide, by decide, by decide, by decide, by decide, by decide⟩

theorem natDigitsAux_spec : ∀ (fuel n : Nat) (acc : GoStr), n < fuel →
    ∃ d : GoStr, natDigitsAux fuel n acc = d ++ acc ∧ d ≠ [] ∧
      (∀ c ∈ d, c ∈ (['0', '1', '2', '3', '4', '5', '6', '7', '8', '9'] : GoStr)) ∧
      ∀ a : Nat, d.foldl (fun a c => 10 * a + (c.toNat - 48)) a = a * 10 ^ d.length + n := by
  intro fuel
  induction fuel with
  | zero => intro n acc h; omega
  | succ f ih =>
    intro n acc h
    by_cases h10 : n < 10
    · refine ⟨[Char.ofNat (48 + n % 10)], ?_, by simp, ?_, ?_⟩
      · simp only [natDigitsAux]
        rw [if_pos h10]
        rfl
      · intro c hc
        rw [List.mem_singleton.1 hc]
        exact digitChar_mem (n % 10) (by omega)
      · intro a
        have ht : (Char.ofNat (48 + n % 10)).toNat = 48 + n % 10 := by
          have h9 : n % 10 < 10 := by omega
          set m := n % 10
          interval_cases m <;> decide
        simp only [List.foldl_cons, List.foldl_nil, ht, List.length_cons,
          List.length_nil, pow_one]
        omega
    · have hdiv : n / 10 < f := by omega
      obtain ⟨d', hd', hne', hdig', hval'⟩ := ih (n / 10) (Char.ofNat (48 + n % 10) :: acc) hdiv
      refine ⟨d' ++ [Char.ofNat (48 + n % 10)], ?_, by simp, ?_, ?_⟩
      · simp only [natDigitsAux]
        rw [if_neg h10, hd']
        simp
      · intro c hc
        rcases List.mem_append.1 hc with hc | hc
        · exact hdig' c hc
        · rw [List.mem_singleton.1 hc]
          exact digitChar_mem (n % 10) (by omega)
      · intro a
        have ht : (Char.ofNat (48 + n % 10)).toNat = 48 + n % 10 := by
          have h9 : n % 10 < 10 := by omega
          set m := n % 10
          interval_cases m <;> decide
        rw [List.foldl_append, hval' a]
        simp only [List.foldl_cons, List.foldl_nil, ht, List.length_append,
          List.length_cons, List.length_nil]
        rw [pow_succ]
        have : 48 + n % 10 - 48 = n % 10 := by omega
        rw [this]
        ring_nf
        omega

theorem natToStr_spec (n : Nat) :
    natToStr n ≠ [] ∧
      (∀ c ∈ natToStr n, c ∈ (['0', '1', '2', '3', '4', '5', '6', '7', '8', '9'] : GoStr)) ∧
      digitsVal (natToStr n) = n := by
  obtain ⟨d, hd, hne, hdig, hval⟩ := natDigitsAux_spec (n + 1) n [] (by omega)
  unfold natToStr
  rw [hd, List.append_nil]
  refine ⟨hne, hdig, ?_⟩
  have := hval 0
  simpa [digitsVal] using this

theorem goAtoi_natToStr (m : Nat) (hm : (m : Int) ≤ (2 : Int) ^ 63 - 1) :
    goAtoi (natToStr m) = some (m : Int) := by
  obtain ⟨hne, hdig, hval⟩ := natToStr_spec m
  cases hs : natToStr m with
  | nil => exact absurd hs hne
  | cons c rest =>
    have hcmem := hdig c (by rw [hs]; simp)
    obtain ⟨hcd, hcm, hcp, -, -, -⟩ := digitChar_facts hcmem
    show goAtoi (c :: rest) = some (m : Int)
    simp only [goAtoi]
    rw [if_neg hcm, if_neg hcp]
    rw [if_neg (show ¬((false, c :: rest) : Bool × GoStr).2 = [] from by simp)]
    rw [if_pos (show List.all ((false, c :: rest) : Bool × GoStr).2 Char.isDigit = true from by
      show List.all (c :: rest) Char.isDigit = true
      rw [← hs]
      exact List.all_eq_true.2 (fun x hx => (digitChar_facts (hdig x hx)).1))]
    rw [if_neg (show ¬((false, c :: rest) : Bool × GoStr).1 = true from by simp)]
    rw [show digitsVal ((false, c :: rest) : Bool × GoStr).2 = m from by
      show digitsVal (c :: rest) = m
      rw [← hs]
      exact hval]
    rw [if_pos ⟨le_trans (by norm_num) (Int.natCast_nonneg m), hm⟩]

theorem goAtoi_intToStr (n : Int) (h1 : -(2 : Int) ^ 63 ≤ n)
    (h2 : n ≤ (2 : Int) ^ 63 - 1) : goAtoi (intToStr n) = some n := by
  by_cases hneg : n < 0
  · unfold intToStr
    rw [if_pos hneg]
    obtain ⟨hne, hdig, hval⟩ := natToStr_spec (-n).toNat
    simp only [goAtoi, if_true]
    rw [if_neg (show ¬((true, natToStr (-n).toNat) : Bool × GoStr).2 = [] from hne)]
    rw [if_pos (show List.all ((true, natToStr (-n).toNat) : Bool × GoStr).2 Char.isDigit = true
      from List.all_eq_true.2 (fun x hx => (digitChar_facts (hdig x hx)).1))]
    rw [hval]
    rw [show (((-n).toNat : Nat) : Int) = -n from Int.toNat_of_nonneg (by omega)]
    rw [if_pos (show -(2 : Int) ^ 63 ≤ -(-n) ∧ -(-n) ≤ (2 : Int) ^ 63 - 1 from by
      have hp : ((2 : Int) ^ 63 : Int) = 9223372036854775808 := by norm_num
      rw [hp] at h1 h2 ⊢
      constructor <;> omega)]
    rw [show -(-n) = n from by omega]
  · unfold intToStr
    rw [if_neg hneg]
    have htn : ((n.toNat : Nat) : Int) = n := Int.toNat_of_nonneg (by omega)
    rw [goAtoi_natToStr n.toNat (by omega), htn]

/-- Every integer-valued convar whose value fits Go's 64-bit `int` (the
only values a Go `int` can hold — the range bound is an artifact of the
embedding's unbounded integers) and differs Go-`==`-wise from its
default is automatically `replayFaithful`: ints always survive the
save/load round trip. -/
theorem replayFaithful_of_int (cv : ConVar M) (n : Int) (hv : cv.value = .int n)
    (h1 : -(2 : Int) ^ 63 ≤ n) (h2 : n ≤ (2 : Int) ^ 63 - 1)
    (hne : goEq cv.valDefault cv.value = false) : replayFaithful cv := by
  have hchars : ∀ c ∈ intToStr n,
      c = '-' ∨ c ∈ (['0', '1', '2', '3', '4', '5', '6', '7', '8', '9'] : GoStr) := by
    intro c hc
    unfold intToStr at hc
    split_ifs at hc with hn
    · rcases List.mem_cons.1 hc with rfl | hc
      · exact Or.inl rfl
      · exact Or.inr ((natToStr_spec (-n).toNat).2.1 c hc)
    · exact Or.inr ((natToStr_spec n.toNat).2.1 c hc)
  have hnonspace : ∀ c ∈ intToStr n, isGoSpace c = false ∧ Char.toLower c = c ∧ c ≠ '\n' := by
    intro c hc
    rcases hchars c hc with rfl | hm
    · exact ⟨by decide, by decide, by decide⟩
    · obtain ⟨-, -, -, hsp, hlo, hnl⟩ := digitChar_facts hm
      exact ⟨hsp, hlo, hnl⟩
  have hfne : intToStr n ≠ [] := by
    unfold intToStr
    split_ifs
    · simp
    · exact (natToStr_spec n.toNat).1
  have hfs : formatVal cv.value = intToStr n := by rw [hv]; rfl
  rw [replayFaithful, hfs]
  refine ⟨hfne, toLowerStr_eq_self (fun c hc => (hnonspace c hc).2.1),
    fun ch hc => (hnonspace ch (List.mem_of_mem_head? (by rw [hc]; rfl))).1,
    fun ch hc => (hnonspace ch (List.mem_of_getLast?_eq_some hc)).1,
    fun hm => (hnonspace '\n' hm).2.2 rfl, hne, fun m hm => ?_, fun f hf => ?_⟩
  · rw [hv] at hm
    injection hm with hm
    rw [← hm]
    exact goAtoi_intToStr n h1 h2
  · rw [hv] at hf
    exact nomatch hf

theorem write_store (cv : ConVar M) (v : GoVal M) (lent : Int)
    (hk : kindOf v = cv.varType) (hf : cv.isFunc = false) (hge : ¬lent < 2)
    (hne : goEq cv.value v = false) :
    cv.write cv.varType (some v) lent = ⟨{ cv with value := v }, [(cv.value, v)], none⟩ := by
  simp only [ConVar.write]
  rw [if_neg (by simp [hk]), if_neg (by simp), if_neg (by simp [hf]), if_neg hge,
    if_neg (by simp [hne])]

theorem execVal_store (c : Console M) (cv : ConVar M) (v : GoVal M) (lent : Int)
    (hw : cv.write cv.varType (some v) lent =
      ⟨{ cv with value := v }, [(cv.value, v)], none⟩) :
    c.execVal cv v lent = ⟨{ c with vars := updateVar c.vars { cv with value := v } },
      [(cv.value, v)], some { cv with value := v }, none⟩ := by
  unfold Console.execVal
  dsimp only
  rw [hw]
  rfl

/-- Replaying the `Save` line of a non-default, non-command variable
into a registry holding its fresh declaration stores exactly the
original value and fires the callback once with `(default, value)`. -/
theorem exec_replay (c : Console M) (cv : ConVar M)
    (hfind : c.vars.find? (fun w => w.varName == cv.varName) = some (declOf cv))
    (hname : validName cv.varName)
    (hk1 : kindOf cv.value = cv.varType)
    (hf : cv.isFunc = false)
    (hrf : replayFaithful cv) :
    c.exec true (cv.varName ++ ' ' :: formatVal cv.value) =
      ⟨{ c with vars := updateVar c.vars cv }, [(cv.valDefault, cv.value)],
        some cv, none⟩ := by
  obtain ⟨hne, hchars, hhash⟩ := hname
  obtain ⟨hfne, hflow, hfhead, hflast, hfnl, hgne, hparseI, hparseF⟩ := hrf
  have hlowname : toLowerStr cv.varName = cv.varName :=
    toLowerStr_eq_self (fun ch hc => (hchars ch hc).2)
  have hlowall : toLowerStr (cv.varName ++ ' ' :: formatVal cv.value) =
      cv.varName ++ ' ' :: formatVal cv.value := by
    show List.map Char.toLower (cv.varName ++ ' ' :: formatVal cv.value) = _
    rw [List.map_append, List.map_cons, show Char.toLower ' ' = ' ' from rfl,
      show List.map Char.toLower cv.varName = cv.varName from hlowname,
      show List.map Char.toLower (formatVal cv.value) = formatVal cv.value from hflow]
  have htrimall : trimSpace (cv.varName ++ ' ' :: formatVal cv.value) =
      cv.varName ++ ' ' :: formatVal cv.value := by
    refine trimSpace_eq_self (fun ch hc => ?_) (fun ch hc => ?_)
    · cases hn : cv.varName with
      | nil => exact absurd hn hne
      | cons n0 ntl =>
        rw [hn] at hc
        have : n0 = ch := by simpa using hc
        exact (hchars ch (by rw [hn, ← this]; simp)).1
    · rw [List.getLast?_append_of_ne_nil _ (by simp),
        show (' ' :: formatVal cv.value) = [' '] ++ formatVal cv.value from rfl,
        List.getLast?_append_of_ne_nil _ hfne] at hc
      exact hflast ch hc
  have hfieldsall : fieldsGo (cv.varName ++ ' ' :: formatVal cv.value) =
      cv.varName :: fieldsGo (formatVal cv.value) :=
    fieldsGo_name_value _ _ hne (fun ch hc => (hchars ch hc).1)
  have hfsne : fieldsGo (formatVal cv.value) ≠ [] :=
    fieldsGo_ne_nil _ hfne hfhead
  have hdrop : (cv.varName ++ ' ' :: formatVal cv.value).drop cv.varName.length =
      ' ' :: formatVal cv.value := List.drop_left _ _
  have htrimdrop : trimSpace (' ' :: formatVal cv.value) = formatVal cv.value := by
    rw [trimSpace_space_cons]
    exact trimSpace_eq_self hfhead hflast
  have hlent : ¬(((1 + (fieldsGo (formatVal cv.value)).length : Nat) : Int) < 2) := by
    have h1 : 0 < (fieldsGo (formatVal cv.value)).length := List.length_pos.2 hfsne
    push_cast
    omega
  unfold Console.exec
  dsimp only
  rw [hlowall, htrimall]
  simp only [hfieldsall]
  rw [if_neg hhash]
  simp only [hfind]
  rw [if_neg (by simp [declOf, hf])]
  rw [if_neg (by simp [List.isEmpty_iff, hfsne])]
  rw [hdrop, htrimdrop]
  cases hv : cv.value with
  | int n =>
    have hkt : cv.varType = Kind.int := by rw [← hk1, hv]; rfl
    rw [hv] at hgne hlent
    simp only [formatVal] at hlent
    simp only [declOf, hkt, formatVal, hparseI n hv]
    have hstep := execVal_store c
      ⟨cv.varName, Kind.int, cv.varDesc, cv.valDefault, cv.valDefault, cv.isFunc⟩
      (GoVal.int n) ((1 + (fieldsGo (intToStr n)).length : Nat) : Int)
      (write_store _ _ _ rfl hf hlent hgne)
    have hcv : (⟨cv.varName, Kind.int, cv.varDesc, GoVal.int n, cv.valDefault,
        cv.isFunc⟩ : ConVar M) = cv := by
      rw [← hv, ← hkt]
    rw [hstep, hcv]
  | float f =>
    have hkt : cv.varType = Kind.float64 := by rw [← hk1, hv]; rfl
    rw [hv] at hgne hlent
    simp only [formatVal] at hlent
    simp only [declOf, hkt, formatVal, hparseF f hv]
    have hstep := execVal_store c
      ⟨cv.varName, Kind.float64, cv.varDesc, cv.valDefault, cv.valDefault, cv.isFunc⟩
      (GoVal.float f) ((1 + (fieldsGo (M.format f)).length : Nat) : Int)
      (write_store _ _ _ rfl hf hlent hgne)
    have hcv : (⟨cv.varName, Kind.float64, cv.varDesc, GoVal.float f, cv.valDefault,
        cv.isFunc⟩ : ConVar M) = cv := by
      rw [← hv, ← hkt]
    rw [hstep, hcv]
  | str s =>
    have hkt : cv.varType = Kind.str := by rw [← hk1, hv]; rfl
    rw [hv] at hgne hlent
    simp only [formatVal] at hlent
    simp only [declOf, hkt, formatVal]
    have hstep := execVal_store c
      ⟨cv.varName, Kind.str, cv.varDesc, cv.valDefault, cv.valDefault, cv.isFunc⟩
      (GoVal.str s) ((1 + (fieldsGo s).length : Nat) : Int)
      (write_store _ _ _ rfl hf hlent hgne)
    have hcv : (⟨cv.varName, Kind.str, cv.varDesc, GoVal.str s, cv.valDefault,
        cv.isFunc⟩ : ConVar M) = cv := by
      rw [← hv, ← hkt]
    rw [hstep, hcv]

theorem Save_eq_saveLines (c : Console M) : c.Save = saveLines c.vars := rfl

theorem lineOf_eq (cv : ConVar M) :
    lineOf cv = (cv.varName ++ ' ' :: formatVal cv.value) ++ ['\n'] := by
  unfold lineOf
  simp

theorem splitNLAux_ne_nil (l : GoStr) (acc : GoStr) : splitNLAux l acc ≠ [] := by
  induction l generalizing acc with
  | nil => simp [splitNLAux]
  | cons c cs ih =>
    show (if c = '\n' then acc.reverse :: splitNLAux cs [] else splitNLAux cs (c :: acc)) ≠ []
    split_ifs
    · simp
    · exact ih _

theorem splitNLAux_append (body rest acc : GoStr) (h : '\n' ∉ body) :
    splitNLAux (body ++ '\n' :: rest) acc =
      (acc.reverse ++ body) :: splitNLAux rest [] := by
  induction body generalizing acc with
  | nil =>
    show (if ('\n' : Char) = '\n' then acc.reverse :: splitNLAux rest [] else _) = _
    rw [if_pos (show ('\n' : Char) = '\n' from rfl)]
    simp
  | cons c cs ih =>
    have hc : c ≠ '\n' := fun he => h (by simp [he])
    show (if c = '\n' then _ else splitNLAux (cs ++ '\n' :: rest) (c :: acc)) = _
    rw [if_neg hc, ih (c :: acc) (fun hm => h (by simp [hm]))]
    simp

theorem scanLines_cons (body rest : GoStr)
    (hnl : '\n' ∉ body) (hcr : body.getLast? ≠ some '\r') :
    scanLines ((body ++ ['\n']) ++ rest) = body :: scanLines rest := by
  have hdc : dropCR body = body := by
    unfold dropCR
    rw [if_neg hcr]
  unfold scanLines
  dsimp only
  have hsplit : splitNLAux ((body ++ ['\n']) ++ rest) [] =
      body :: splitNLAux rest [] := by
    rw [List.append_assoc, List.singleton_append]
    simpa using splitNLAux_append body rest [] hnl
  rw [hsplit]
  cases hq : splitNLAux rest [] with
  | nil => exact absurd hq (splitNLAux_ne_nil rest [])
  | cons p ps =>
    rw [List.getLast?_cons_cons]
    by_cases hL : (p :: ps).getLast? = some ([] : GoStr)
    · rw [if_pos hL, if_pos hL]
      show List.map dropCR (body :: (p :: ps).dropLast) = _
      rw [List.map_cons, hdc]
    · rw [if_neg hL, if_neg hL]
      rw [List.map_cons, hdc]

theorem find?_map_declOf (l : List (ConVar M)) (b : GoStr) :
    (l.map declOf).find? (fun w => w.varName == b) =
      (l.find? (fun w => w.varName == b)).map declOf := by
  induction l with
  | nil => rfl
  | cons w ws ih =>
    by_cases hw : w.varName = b
    · rw [List.map_cons, List.find?_cons_of_pos _ (by simp [declOf, hw]),
        List.find?_cons_of_pos _ (by simp [hw])]
      rfl
    · rw [List.map_cons, List.find?_cons_of_neg _ (by simp [declOf, hw]),
        List.find?_cons_of_neg _ (by simp [hw])]
      exact ih

theorem find?_of_mem_nodup (l : List (ConVar M)) (w : ConVar M) (hmem : w ∈ l)
    (hnodup : l.Pairwise (fun a b => a.varName ≠ b.varName)) :
    l.find? (fun x => x.varName == w.varName) = some w := by
  induction l with
  | nil => cases hmem
  | cons x xs ih =>
    rw [List.pairwise_cons] at hnodup
    rcases List.mem_cons.1 hmem with rfl | hmem'
    · exact List.find?_cons_of_pos _ (by simp)
    · rw [List.find?_cons_of_neg _ (by simp [hnodup.1 w hmem'])]
      exact ih hmem' hnodup.2

theorem load_save_aux : ∀ (vs : List (ConVar M)) (c2 : Console M),
    vs.Pairwise (fun a b => a.varName ≠ b.varName) →
    (∀ cv ∈ vs, c2.vars.find? (fun w => w.varName == cv.varName) = some (declOf cv)) →
    (∀ cv ∈ vs, validName cv.varName ∧ kindOf cv.value = cv.varType ∧
      (cv.isFunc = true → cv.value = cv.valDefault) ∧
      (goEq cv.value cv.valDefault = true → cv.value = cv.valDefault) ∧
      (goEq cv.value cv.valDefault = false → cv.isFunc = false → replayFaithful cv)) →
    (∀ cv ∈ vs,
      (Console.loadLines c2 (scanLines (saveLines vs))).vars.find?
        (fun w => w.varName == cv.varName) = some cv) ∧
    (∀ b, (∀ cv ∈ vs, b ≠ cv.varName) →
      (Console.loadLines c2 (scanLines (saveLines vs))).vars.find?
        (fun w => w.varName == b) = c2.vars.find? (fun w => w.varName == b)) := by
  intro vs
  induction vs with
  | nil =>
    intro c2 _ _ _
    exact ⟨by simp, fun b _ => rfl⟩
  | cons cv vs ih =>
    intro c2 hnodup hfind hyp
    rw [List.pairwise_cons] at hnodup
    obtain ⟨hvn, hk1, hfuncd, hcanon, hrf⟩ := hyp cv (by simp)
    by_cases hemit : (goEq cv.value cv.valDefault || cv.isFunc) = true
    · have hsl : saveLines (cv :: vs) = saveLines vs := by
        unfold saveLines
        rw [List.map_cons, List.flatten_cons, if_pos hemit, List.nil_append]
      have hvd : cv.value = cv.valDefault := by
        rcases Bool.or_eq_true_iff.1 hemit with h | h
        · exact hcanon h
        · exact hfuncd h
      have hdecl : declOf cv = cv := by
        show ({ cv with value := cv.valDefault } : ConVar M) = cv
        nth_rewrite 1 [← hvd]
        rfl
      obtain ⟨IH1, IH2⟩ := ih c2 hnodup.2
        (fun w hw => hfind w (by simp [hw]))
        (fun w hw => hyp w (by simp [hw]))
      refine ⟨fun w hw => ?_, fun b hb => ?_⟩
      · rcases List.mem_cons.1 hw with rfl | hw'
        · rw [hsl, IH2 w.varName hnodup.1]
          rw [hfind w (by simp), hdecl]
        · rw [hsl]
          exact IH1 w hw'
      · rw [hsl]
        exact IH2 b (fun w hw => hb w (by simp [hw]))
    · have hof := Bool.or_eq_false_iff.1 (Bool.eq_false_iff.2 hemit)
      have hgne : goEq cv.value cv.valDefault = false := hof.1
      have hfn : cv.isFunc = false := hof.2
      have hrff := hrf hgne hfn
      obtain ⟨hfne, hflow, hfhead, hflast, hfnl, -, -, -⟩ := hrf hgne hfn
      have hnl : '\n' ∉ cv.varName ++ ' ' :: formatVal cv.value := by
        intro hm
        rcases List.mem_append.1 hm with hm | hm
        · have := (hvn.2.1 '\n' hm).1
          simp [isGoSpace] at this
        · rcases List.mem_cons.1 hm with hsp | hm
          · exact absurd hsp.symm (by decide)
          · exact hfnl hm
      have hcr : (cv.varName ++ ' ' :: formatVal cv.value).getLast? ≠ some '\r' := by
        rw [List.getLast?_append_of_ne_nil _ (by simp),
          show (' ' :: formatVal cv.value) = [' '] ++ formatVal cv.value from rfl,
          List.getLast?_append_of_ne_nil _ hfne]
        intro hlast
        have := hflast '\r' hlast
        simp [isGoSpace] at this
      have hscan : scanLines (saveLines (cv :: vs)) =
          (cv.varName ++ ' ' :: formatVal cv.value) :: scanLines (saveLines vs) := by
        unfold saveLines
        rw [List.map_cons, List.flatten_cons, if_neg hemit, lineOf_eq]
        exact scanLines_cons _ _ hnl hcr
      have hexec := exec_replay c2 cv (hfind cv (by simp)) hvn hk1 hfn hrff
      have hstep : Console.loadLines c2 (scanLines (saveLines (cv :: vs))) =
          Console.loadLines { c2 with vars := updateVar c2.vars cv }
            (scanLines (saveLines vs)) := by
        rw [hscan]
        show Console.loadLines ((c2.exec true _).con) _ = _
        rw [hexec]
      obtain ⟨IH1, IH2⟩ := ih { c2 with vars := updateVar c2.vars cv } hnodup.2
        (fun w hw => by
          show (updateVar c2.vars cv).find? (fun x => x.varName == w.varName) = _
          rw [find?_updateVar_ne c2.vars cv w.varName (hnodup.1 w hw)]
          exact hfind w (by simp [hw]))
        (fun w hw => hyp w (by simp [hw]))
      refine ⟨fun w hw => ?_, fun b hb => ?_⟩
      · rcases List.mem_cons.1 hw with rfl | hw'
        · rw [hstep, IH2 w.varName hnodup.1]
          show (updateVar c2.vars w).find? (fun x => x.varName == w.varName) = some w
          exact find?_updateVar_self c2.vars w (by rw [hfind w (by simp)]; rfl)
        · rw [hstep]
          exact IH1 w hw'
      · rw [hstep, IH2 b (fun w hw => hb w (by simp [hw]))]
        show (updateVar c2.vars cv).find? (fun x => x.varName == b) = _
        exact find?_updateVar_ne c2.vars cv b (fun he => hb cv (by simp) he.symm)

/-- Claim C3, amended with replay-faithful values. `Save` then `Load` into a
fresh registry holding the same declarations reproduces every variable —
same current value included — provided each variable has a valid
canonical name, a well-kinded value, command variables sit at their
default, Go-equal-to-default values are equal to the default, and each
saved (non-default, non-command) variable is `replayFaithful`: its
serialized text is nonempty, lowercase, trimmed and newline-free and
parses back to the stored value.  Ints in the 64-bit range always
satisfy this; Go floats do except NaN; strings do exactly when already
canonical — the counterexample shows a non-canonical string (`"ABC"`,
set via `SetString`) comes back lowercased, refuting the unamended
claim. -/
theorem c3_save_load_roundtrip (c1 c2 : Console M)
    (hvars : c2.vars = c1.vars.map declOf)
    (hnodup : c1.vars.Pairwise (fun a b => a.varName ≠ b.varName))
    (hyp : ∀ cv ∈ c1.vars, validName cv.varName ∧ kindOf cv.value = cv.varType ∧
      (cv.isFunc = true → cv.value = cv.valDefault) ∧
      (goEq cv.value cv.valDefault = true → cv.value = cv.valDefault) ∧
      (goEq cv.value cv.valDefault = false → cv.isFunc = false → replayFaithful cv))
    (cv : ConVar M) (hcv : cv ∈ c1.vars) :
    (c2.Load c1.Save).vars.find? (fun w => w.varName == cv.varName) = some cv := by
  have hfind : ∀ w ∈ c1.vars,
      c2.vars.find? (fun x => x.varName == w.varName) = some (declOf w) := by
    intro w hw
    rw [hvars, find?_map_declOf, find?_of_mem_nodup c1.vars w hw hnodup]
    rfl
  exact (load_save_aux c1.vars c2 hnodup hfind hyp).1 cv hcv

theorem nonspace_at (o : Option Char) (c0 : Char) (h : o = some c0)
    (hc : isGoSpace c0 = false) : ∀ ch, o = some ch → isGoSpace ch = false := by
  intro ch hch
  rw [h] at hch
  injection hch with he
  rw [← he]
  exact hc

theorem c3_witness :
    (c3c2.Load c3c1.Save).vars.find? (fun w => w.varName == c3cv.varName) =
      some c3cv := by
  refine c3_save_load_roundtrip c3c1 c3c2 rfl (by decide) ?_ c3cv (by simp [c3c1])
  intro w hw
  rcases List.mem_cons.1 hw with rfl | hw'
  · refine ⟨⟨by decide, by decide, by decide⟩, rfl, fun h => absurd h (by decide),
      fun h => absurd h (by decide), fun _ _ => ?_⟩
    refine ⟨by decide, by decide,
      nonspace_at _ '1' rfl (by decide), nonspace_at _ '0' rfl (by decide),
      by decide, by decide, fun n hn => ?_, fun f hf => ?_⟩
    · rw [show c3cv.value = GoVal.int 10 from rfl] at hn
      injection hn with h
      rw [← h]
      decide
    · rw [show c3cv.value = GoVal.int 10 from rfl] at hf
      exact nomatch hf
  · rcases List.mem_cons.1 hw' with rfl | hw''
    · refine ⟨⟨by decide, by decide, by decide⟩, rfl, fun h => absurd h (by decide),
        fun h => absurd h (by decide), fun _ _ => ?_⟩
      refine ⟨by decide, by decide,
        nonspace_at _ 'a' rfl (by decide), nonspace_at _ 'c' rfl (by decide),
        by decide, by decide, fun n hn => ?_, fun f hf => ?_⟩
      · rw [show c3str.value = GoVal.str ("abc".toList) from rfl] at hn
        exact nomatch hn
      · rw [show c3str.value = GoVal.str ("abc".toList) from rfl] at hf
        exact nomatch hf
    · exact absurd hw'' (by simp)

/-- Claim C3, counterexample. A string variable whose current value `"ABC"`
(settable through `SetString`) is saved as `s ABC`, but `Load` lowercases
the replayed line, so the fresh registry ends with `"abc"` — not the
original value: the unamended round-trip claim fails. -/
theorem c3_counterexample :
    (c3xc2.Load c3xc1.Save).vars.find? (fun w => w.varName == c3xcv.varName) =
      some ⟨['s'], .str, [], .str ("abc".toList), .str [], false⟩ ∧
    (GoVal.str ("abc".toList) : GoVal unitFloatModel) ≠ GoVal.str ("ABC".toList) := by
  constructor
  · rfl
  · intro h
    injection h with h'
    exact absurd h' (by decide)

theorem c5_witness :
    Console.loadLines c5con ("nope 1".toList :: ["cl_width 5".toList]) =
      Console.loadLines ((c5con.exec true ("nope 1".toList)).con) ["cl_width 5".toList] ∧
    (c5con.exec true ("nope 1".toList)).con = c5con ∧
    Console.loadLines c5con ("nope 1".toList :: ["cl_width 5".toList]) =
      Console.loadLines c5con ["cl_width 5".toList] ∧
    c5con.Load ("x".toList) = Console.loadLines c5con (scanLines ("x".toList)) :=
  c5_load_swallows_line_errors c5con ("nope 1".toList) ["cl_width 5".toList]
    ("x".toList) (.varNotFound ("nope".toList)) (by simp [c5con]) rfl
